import Mathlib

/-!
Verification of the blog-to-speech bot (`src/main.rs`).

The only original algorithm in the repository is `chunk_text_by_lines`
(main.rs lines 160-185), a line-boundary-aware chunker.  We embed it
shallowly: a Rust `&str` is modelled as a `List Char`, and `str::len`
(a byte count in Rust) is modelled as the character count, which agrees
with the byte count on the ASCII inputs of all concrete scenarios and
preserves the additivity `len (a ++ b) = len a + len b` that every proof
below relies on.

The pipeline orchestrator (the `teloxide::repl` closure, main.rs lines
97-154) together with `edit_text` (lines 217-272) is embedded as a pure
function from an environment of external-call outcomes (chat transport,
browser extraction, rewrite HTTP call, synthesis HTTP call) to a trace of
observable events plus a final outcome (`ok` / returned error / panic).
-/

namespace BlogBot

/-- Rust `str::split('\x0a')` on a character list: always returns at least
one (possibly empty) piece, splitting at every newline character. -/
def splitNL : List Char → List (List Char)
  | [] => [[]]
  | c :: rest =>
    if c = '\n' then [] :: splitNL rest
    else
      match splitNL rest with
      | [] => [[c]]
      | p :: ps => (c :: p) :: ps

/-- Rust `str::strip_suffix('\x0d')` composed with `unwrap_or`: removes one
trailing carriage return if present (used by `str::lines` on each piece
that was terminated by a newline). -/
def stripCR : List Char → List Char
  | [] => []
  | [c] => if c = '\r' then [] else [c]
  | c :: d :: rest => c :: stripCR (d :: rest)

/-- The post-processing done by Rust `str::lines` on the pieces produced by
splitting at newlines: every piece except the last was terminated by a
newline, so a trailing carriage return is stripped from it; the final
piece is kept as-is unless it is empty (a trailing line terminator yields
no extra line). -/
def linesAux : List (List Char) → List (List Char)
  | [] => []
  | [p] => if p = [] then [] else [p]
  | p :: q :: rest => stripCR p :: linesAux (q :: rest)

/-- Rust `str::lines` (the iterator consumed by the `for line in
text.lines()` loop of `chunk_text_by_lines`, main.rs line 164). -/
def rustLines (text : List Char) : List (List Char) :=
  linesAux (splitNL text)

/-- The loop body of `chunk_text_by_lines` (main.rs lines 164-182),
with the accumulator `cur` made explicit.  For each line: if
`cur.len + line.len + 1 > max_chunk_size` the accumulator is pushed as a
finished chunk and reset; then the line is appended, preceded by a
newline when the accumulator is nonempty.  After the loop the accumulator
is pushed if nonempty. -/
def chunkLoop (maxChunkSize : Nat) : List (List Char) → List Char → List (List Char)
  | [], cur => if cur = [] then [] else [cur]
  | line :: rest, cur =>
    if cur.length + line.length + 1 > maxChunkSize then
      cur :: chunkLoop maxChunkSize rest line
    else if cur = [] then
      chunkLoop maxChunkSize rest line
    else
      chunkLoop maxChunkSize rest (cur ++ '\n' :: line)

/-- `chunk_text_by_lines` (main.rs lines 160-185). -/
def chunk_text_by_lines (text : List Char) (maxChunkSize : Nat) : List (List Char) :=
  chunkLoop maxChunkSize (rustLines text) []

/-- Joining a chunk sequence with a single newline separator between
consecutive chunks (the reconstruction operation of the spec). -/
def joinChunks : List (List Char) → List Char
  | [] => []
  | [c] => c
  | c :: c₂ :: rest => c ++ '\n' :: joinChunks (c₂ :: rest)

/-- Minimal model of a `serde_json::Value` (only the operations that
`edit_text` performs on the response body are needed). -/
inductive Json where
  | null
  | bool (b : Bool)
  | num (n : Int)
  | str (s : String)
  | arr (elems : List Json)
  | obj (fields : List (String × Json))

/-- serde_json `value[key]` for a string key: the field's value when the
value is an object containing the key, `Null` otherwise. -/
def Json.idx (j : Json) (key : String) : Json :=
  match j with
  | .obj fields =>
    match fields.lookup key with
    | some v => v
    | none => .null
  | _ => .null

/-- serde_json `value[i]` for a usize index: the element when the value is
an array long enough, `Null` otherwise. -/
def Json.atIdx (j : Json) (i : Nat) : Json :=
  match j with
  | .arr elems => (elems.get? i).getD .null
  | _ => .null

/-- serde_json `Value::as_str`. -/
def Json.asStr : Json → Option String
  | .str s => some s
  | _ => none

/-- Outcome of the rewrite HTTP call as observed by `edit_text` (main.rs
lines 217-272): either a transport-level failure (missing credential env
var, send failure, body-read or JSON-parse failure — each propagated by
`?`), or a response with a success flag for its status, the body text used
in the non-success error message, and the parsed JSON body. -/
inductive RewriteResp where
  | transportErr (detail : String)
  | resp (statusOk : Bool) (bodyText : String) (body : Json)

/-- Result of `edit_text`: an edited text, a returned error, or a panic
(the `unwrap()` on main.rs line 270 when
`choices[0].message.content` is missing or not a string). -/
inductive EditResult where
  | ok (text : String)
  | err (detail : String)
  | panicked
deriving DecidableEq

/-- `edit_text` (main.rs lines 217-272), as a function of the rewrite
call's outcome.  A non-success status returns an error built from the
response body (line 261-267); otherwise the content is read at
`["choices"][0]["message"]["content"].as_str()` and `unwrap()`ed
(line 270): a missing or non-string field panics. -/
def edit_text (r : RewriteResp) : EditResult :=
  match r with
  | .transportErr d => .err d
  | .resp false bodyText _ => .err ("Failed to edit text: " ++ bodyText)
  | .resp true _ body =>
    match ((((body.idx "choices").atIdx 0).idx "message").idx "content").asStr with
    | some s => .ok s
    | none => .panicked

/-- Observable events of one request handled by the `teloxide::repl`
closure (main.rs lines 97-154): the acknowledgement send (line 105), an
error message sent to the chat via `handle_error` (line 42), the browser
extraction call (line 110), the rewrite call (line 123), a synthesis call
for chunk `i` (line 135), and an audio delivery for chunk `i` with its
file name (lines 145-149). -/
inductive Event where
  | ack
  | errMsg (text : String)
  | extractCall (url : String)
  | rewriteCall
  | ttsCall (i : Nat) (chunk : List Char)
  | audioSent (i : Nat) (filename : String)
deriving DecidableEq

/-- How the handler's control flow ends: normal completion, an error value
returned (propagated with `?` after `handle_error`), or a panic. -/
inductive Outcome where
  | ok
  | err
  | panicked
deriving DecidableEq

/-- Environment of external-call outcomes for one request: the message's
text, whether the acknowledgement send succeeds, the extraction result,
the rewrite response, the synthesis result per chunk index and chunk, and
whether each audio delivery succeeds. -/
structure Env where
  msgText : Option String
  ackOk : Bool
  extract : Except String String
  rewrite : RewriteResp
  tts : Nat → List Char → Except String String
  deliver : Nat → Bool

/-- The per-chunk loop of the repl closure (main.rs lines 130-150): for
each chunk in order, call the synthesizer; on failure send one
stage-labeled error message and return an error; on success deliver the
audio tagged `part_<index>.mp3` (a delivery failure returns an error via
`?` with no chat message) and continue with the next chunk. -/
def runChunks (tts : Nat → List Char → Except String String)
    (deliver : Nat → Bool) : List (List Char) → Nat → List Event × Outcome
  | [], _ => ([], .ok)
  | chunk :: rest, i =>
    match tts i chunk with
    | .error e =>
      ([.ttsCall i chunk,
        .errMsg ("Error: Error converting text to speech " ++ e)], .err)
    | .ok _audio =>
      if deliver i then
        let res := runChunks tts deliver rest (i + 1)
        (.ttsCall i chunk ::
          .audioSent i ("part_" ++ toString i ++ ".mp3") :: res.1, res.2)
      else
        ([.ttsCall i chunk], .err)

/-- The whole repl closure (main.rs lines 97-154): ignore textless
messages; send the acknowledgement and abort on its failure (`?` on line
106); extract the blog text, reporting failure with the extraction label;
rewrite it via `edit_text`, reporting a returned failure with the rewrite
label (a panic in `edit_text` aborts the handler without any message);
chunk the edited text at 4096; then synthesize and deliver each chunk. -/
def handleMsg (env : Env) : List Event × Outcome :=
  match env.msgText with
  | none => ([], .ok)
  | some url =>
    if env.ackOk then
      match env.extract with
      | .error e =>
        ([.ack, .extractCall url,
          .errMsg ("Error: Error retrieving blog text " ++ e)], .err)
      | .ok _blogText =>
        match edit_text env.rewrite with
        | .err e =>
          ([.ack, .extractCall url, .rewriteCall,
            .errMsg ("Error: Error editing text " ++ e)], .err)
        | .panicked => ([.ack, .extractCall url, .rewriteCall], .panicked)
        | .ok edited =>
          let res := runChunks env.tts env.deliver
            (chunk_text_by_lines edited.toList 4096) 0
          (.ack :: .extractCall url :: .rewriteCall :: res.1, res.2)
    else ([.ack], .err)

/-- The events produced by a successful synthesize-and-deliver pass over a
chunk list starting at index `s`. -/
def okEvents : List (List Char) → Nat → List Event
  | [], _ => []
  | c :: rest, s =>
    .ttsCall s c :: .audioSent s ("part_" ++ toString s ++ ".mp3") ::
      okEvents rest (s + 1)

/-- The texts of the error messages occurring in an event trace. -/
def errMsgTexts (evs : List Event) : List String :=
  evs.filterMap fun ev =>
    match ev with
    | .errMsg t => some t
    | _ => none

/-- A response body holding a well-formed rewritten text. -/
def goodBody : Json :=
  Json.obj [("choices", Json.arr
    [Json.obj [("message", Json.obj [("content", Json.str "hello there")])]])]

/-- Synthesis oracle that always succeeds. -/
def ttsOkDemo : Nat → List Char → Except String String :=
  fun _ _ => Except.ok "audio"

/-- Synthesis oracle failing exactly at chunk index 1. -/
def ttsFailAt1 : Nat → List Char → Except String String :=
  fun i _ => if i = 1 then Except.error "boom" else Except.ok "audio"

/-- Synthesis oracle failing exactly at chunk index 2. -/
def ttsFailAt2 : Nat → List Char → Except String String :=
  fun i _ => if i = 2 then Except.error "boom" else Except.ok "audio"

/-- Delivery oracle that always succeeds. -/
def deliverAllDemo : Nat → Bool := fun _ => true

/-- Environment whose acknowledgement send fails while every later stage
would succeed. -/
def envAckFail : Env :=
  ⟨some "u", false, Except.ok "text",
    RewriteResp.resp true "" goodBody, ttsOkDemo, deliverAllDemo⟩

/-- Environment whose extraction fails with detail "nav". -/
def envExtractFail : Env :=
  ⟨some "u", true, Except.error "nav",
    RewriteResp.resp true "" goodBody, ttsOkDemo, deliverAllDemo⟩

/-- Environment whose rewrite call returns a success status with a
malformed body (an empty JSON object: no `choices[0].message.content`). -/
def envMalformed : Env :=
  ⟨some "u", true, Except.ok "blog",
    RewriteResp.resp true "" (Json.obj []), ttsOkDemo, deliverAllDemo⟩

end BlogBot

namespace BlogBot

/-- C8: chunk_text_by_lines("line1\x0aline2\x0aline3", 11) returns exactly
["line1\x0aline2", "line3"]: the first two lines fill a chunk of length
exactly 11 counting the separator, and adding the third would exceed 11. -/
theorem chunk_three_lines_example :
    chunk_text_by_lines "line1\nline2\nline3".toList 11 =
      ["line1\nline2".toList, "line3".toList] := by
  decide

/-- C9: for every max size S, chunk_text_by_lines("", S) returns the empty
sequence of chunks. -/
theorem chunk_empty_text (S : Nat) :
    chunk_text_by_lines "".toList S = [] := rfl

/-- C10: the overflow check counts the +1 separator even when the
accumulator is empty, and seals the (possibly empty) accumulator
unconditionally: whenever the first line of the text has length ≥ S, the
first chunk returned by chunk_text_by_lines is the empty string. -/
theorem chunk_first_line_oversize_empty_chunk (text : List Char) (S : Nat)
    (l : List Char) (ls : List (List Char))
    (h : rustLines text = l :: ls) (hS : S ≤ l.length) :
    (chunk_text_by_lines text S).head? = some [] := by
  unfold chunk_text_by_lines
  rw [h]
  unfold chunkLoop
  have hcond : List.length ([] : List Char) + l.length + 1 > S := by
    simp only [List.length_nil]
    omega
  rw [if_pos hcond]
  rfl

/-- Witness for C10 at the concrete input "aaaa" with S = 4: the first line
has length 4 ≥ 4, and the first chunk is the empty string. -/
theorem chunk_first_line_oversize_empty_chunk_witness :
    (rustLines "aaaa".toList = ["aaaa".toList] ∧ 4 ≤ "aaaa".toList.length) ∧
      (chunk_text_by_lines "aaaa".toList 4).head? = some [] :=
  ⟨⟨by decide, by decide⟩,
    chunk_first_line_oversize_empty_chunk "aaaa".toList 4 "aaaa".toList []
      (by decide) (by decide)⟩

/-- `splitNL` never returns the empty list of pieces. -/
theorem splitNL_ne_nil : ∀ t : List Char, splitNL t ≠ [] := by
  intro t
  induction t with
  | nil => simp [splitNL]
  | cons c rest ih =>
    unfold splitNL
    split
    · simp
    · match h : splitNL rest with
      | [] => exact absurd h ih
      | p :: ps => simp [h]

/-- No piece produced by `splitNL` contains a newline character. -/
theorem mem_splitNL_no_newline : ∀ (t p : List Char), p ∈ splitNL t → '\n' ∉ p := by
  intro t
  induction t with
  | nil =>
    intro p hp
    simp [splitNL] at hp
    simp [hp]
  | cons c rest ih =>
    intro p hp
    unfold splitNL at hp
    split at hp
    · rcases List.mem_cons.mp hp with h | h
      · simp [h]
      · exact ih p h
    · rename_i hc
      match hrest : splitNL rest with
      | [] => exact absurd hrest (splitNL_ne_nil rest)
      | q :: qs =>
        rw [hrest] at hp
        rcases List.mem_cons.mp hp with h | h
        · subst h
          intro hmem
          rcases List.mem_cons.mp hmem with h | h
          · exact hc h.symm
          · exact ih q (by simp [hrest]) h
        · exact ih p (by simp [hrest, h])

/-- `stripCR` only removes characters: its result is a sub-collection of
its argument. -/
theorem stripCR_subset : ∀ (l : List Char) (x : Char), x ∈ stripCR l → x ∈ l := by
  intro l
  induction l with
  | nil => intro x hx; simp [stripCR] at hx
  | cons c rest ih =>
    intro x hx
    match rest with
    | [] =>
      unfold stripCR at hx
      split at hx <;> simp_all
    | d :: rest' =>
      unfold stripCR at hx
      rcases List.mem_cons.mp hx with h | h
      · simp [h]
      · exact List.mem_cons_of_mem _ (ih x h)

/-- Every line produced by `linesAux` is (up to carriage-return stripping)
one of the pieces it was given. -/
theorem mem_linesAux : ∀ (parts : List (List Char)) (c : List Char),
    c ∈ linesAux parts → ∃ p ∈ parts, c = stripCR p ∨ c = p := by
  intro parts
  induction parts with
  | nil => intro c hc; simp [linesAux] at hc
  | cons p rest ih =>
    intro c hc
    match rest with
    | [] =>
      unfold linesAux at hc
      split at hc
      · simp at hc
      · simp at hc
        exact ⟨p, by simp, Or.inr hc⟩
    | q :: rest' =>
      unfold linesAux at hc
      rcases List.mem_cons.mp hc with h | h
      · exact ⟨p, by simp, Or.inl h⟩
      · obtain ⟨p', hp', hcase⟩ := ih c h
        exact ⟨p', List.mem_cons_of_mem _ hp', hcase⟩

/-- No line produced by `rustLines` contains a newline character. -/
theorem mem_rustLines_no_newline {t c : List Char} (hc : c ∈ rustLines t) :
    '\n' ∉ c := by
  obtain ⟨p, hp, hcase⟩ := mem_linesAux (splitNL t) c hc
  have hnp := mem_splitNL_no_newline t p hp
  rcases hcase with h | h
  · subst h
    intro hmem
    exact hnp (stripCR_subset p _ hmem)
  · subst h
    exact hnp

/-- Every character of a line produced by `rustLines` occurs in the text. -/
theorem mem_rustLines_subset : ∀ (t c : List Char), c ∈ rustLines t →
    ∀ x ∈ c, x ∈ t := by
  have hsplit : ∀ (t p : List Char), p ∈ splitNL t → ∀ x ∈ p, x ∈ t := by
    intro t
    induction t with
    | nil => intro p hp; simp [splitNL] at hp; simp [hp]
    | cons c rest ih =>
      intro p hp x hx
      unfold splitNL at hp
      split at hp
      · rcases List.mem_cons.mp hp with h | h
        · simp [h] at hx
        · exact List.mem_cons_of_mem _ (ih p h x hx)
      · match hrest : splitNL rest with
        | [] => exact absurd hrest (splitNL_ne_nil rest)
        | q :: qs =>
          rw [hrest] at hp
          rcases List.mem_cons.mp hp with h | h
          · subst h
            rcases List.mem_cons.mp hx with h | h
            · simp [h]
            · exact List.mem_cons_of_mem _ (ih q (by simp [hrest]) x h)
          · exact List.mem_cons_of_mem _ (ih p (by simp [hrest, h]) x hx)
  intro t c hc x hx
  obtain ⟨p, hp, hcase⟩ := mem_linesAux (splitNL t) c hc
  rcases hcase with h | h
  · subst h
    exact hsplit t p hp x (stripCR_subset p x hx)
  · subst h
    exact hsplit t c hp x hx

/-- Every chunk produced by `chunkLoop` is the incoming accumulator, fits
the size bound, or is one of the remaining input lines: chunks assembled
from several lines are only ever sealed while within the bound. -/
theorem chunkLoop_mem_size (S : Nat) :
    ∀ (ls : List (List Char)) (cur c : List Char),
      c ∈ chunkLoop S ls cur → c = cur ∨ c.length ≤ S ∨ c ∈ ls := by
  intro ls
  induction ls with
  | nil =>
    intro cur c hc
    unfold chunkLoop at hc
    split at hc
    · simp at hc
    · simp at hc
      exact Or.inl hc
  | cons line rest ih =>
    intro cur c hc
    unfold chunkLoop at hc
    split at hc
    · rcases List.mem_cons.mp hc with h | h
      · exact Or.inl h
      · rcases ih line c h with h' | h' | h'
        · exact Or.inr (Or.inr (by simp [h']))
        · exact Or.inr (Or.inl h')
        · exact Or.inr (Or.inr (List.mem_cons_of_mem _ h'))
    · split at hc
      · rcases ih line c hc with h' | h' | h'
        · exact Or.inr (Or.inr (by simp [h']))
        · exact Or.inr (Or.inl h')
        · exact Or.inr (Or.inr (List.mem_cons_of_mem _ h'))
      · rename_i hcond hcur
        rcases ih (cur ++ '\n' :: line) c hc with h' | h' | h'
        · subst h'
          refine Or.inr (Or.inl ?_)
          have : cur.length + line.length + 1 ≤ S := by omega
          simp [List.length_append]
          omega
        · exact Or.inr (Or.inl h')
        · exact Or.inr (Or.inr (List.mem_cons_of_mem _ h'))

/-- An accumulator already over the size bound is sealed as its own chunk:
it appears in the output of `chunkLoop`. -/
theorem chunkLoop_self_mem (S : Nat) :
    ∀ (ls : List (List Char)) (cur : List Char),
      S < cur.length → cur ∈ chunkLoop S ls cur := by
  intro ls
  induction ls with
  | nil =>
    intro cur hcur
    unfold chunkLoop
    have : cur ≠ [] := by
      intro h
      subst h
      simp at hcur
    simp [this]
  | cons line rest ih =>
    intro cur hcur
    unfold chunkLoop
    have hcond : cur.length + line.length + 1 > S := by omega
    rw [if_pos hcond]
    exact List.mem_cons_self _ _

/-- Every remaining input line longer than the size bound ends up in the
output of `chunkLoop` as its own chunk. -/
theorem chunkLoop_oversize_mem (S : Nat) :
    ∀ (ls : List (List Char)) (cur l : List Char),
      l ∈ ls → S < l.length → l ∈ chunkLoop S ls cur := by
  intro ls
  induction ls with
  | nil => intro cur l hl; simp at hl
  | cons line rest ih =>
    intro cur l hl hlen
    rcases List.mem_cons.mp hl with h | h
    · subst h
      unfold chunkLoop
      split
      · exact List.mem_cons_of_mem _ (chunkLoop_self_mem S rest l hlen)
      · split
        · exact chunkLoop_self_mem S rest l hlen
        · rename_i hcond hcur
          exact absurd (by omega : cur.length + l.length + 1 > S) hcond
    · unfold chunkLoop
      split
      · exact List.mem_cons_of_mem _ (ih line l h hlen)
      · split
        · exact ih line l h hlen
        · exact ih (cur ++ '\n' :: line) l h hlen

/-- C2: every chunk of chunk_text_by_lines(T, S) has length ≤ S, except
that a chunk may exceed S only by being a single input line of T placed
alone and unsplit (it contains no newline); moreover every input line
longer than S does appear as its own chunk. -/
theorem chunk_size_policy (text : List Char) (S : Nat) :
    (∀ c ∈ chunk_text_by_lines text S,
        c.length ≤ S ∨ (c ∈ rustLines text ∧ '\n' ∉ c)) ∧
    (∀ l ∈ rustLines text, S < l.length → l ∈ chunk_text_by_lines text S) := by
  constructor
  · intro c hc
    rcases chunkLoop_mem_size S (rustLines text) [] c hc with h | h | h
    · subst h
      exact Or.inl (by simp)
    · exact Or.inl h
    · by_cases hlen : c.length ≤ S
      · exact Or.inl hlen
      · exact Or.inr ⟨h, mem_rustLines_no_newline h⟩
  · intro l hl hlen
    exact chunkLoop_oversize_mem S (rustLines text) [] l hl hlen

/-- Witness for C2 at text "aaaaa" with S = 3: the oversized chunk "aaaaa"
is a member of the output, and it is an unsplit input line. -/
theorem chunk_size_policy_witness :
    "aaaaa".toList ∈ chunk_text_by_lines "aaaaa".toList 3 ∧
      ("aaaaa".toList.length ≤ 3 ∨
        ("aaaaa".toList ∈ rustLines "aaaaa".toList ∧ '\n' ∉ "aaaaa".toList)) :=
  ⟨by decide, (chunk_size_policy "aaaaa".toList 3).1 "aaaaa".toList (by decide)⟩

/-- Splitting a newline-free character list at newlines returns it whole. -/
theorem splitNL_no_newline_self : ∀ c : List Char, '\n' ∉ c → splitNL c = [c] := by
  intro c
  induction c with
  | nil => intro _; rfl
  | cons x rest ih =>
    intro hx
    have hxn : ¬ x = '\n' := fun hcontra => hx (by simp [hcontra])
    have hrest : '\n' ∉ rest := fun hcontra => hx (List.mem_cons_of_mem _ hcontra)
    unfold splitNL
    rw [if_neg hxn, ih hrest]

/-- Unfolding `splitNL` at a non-newline head character: the character is
prepended to the first piece of the split of the tail. -/
theorem splitNL_cons_ne (x : Char) (rest : List Char) (hx : ¬ x = '\n') :
    splitNL (x :: rest) =
      (x :: (splitNL rest).headI) :: (splitNL rest).tail := by
  match h : splitNL rest with
  | [] => exact absurd h (splitNL_ne_nil rest)
  | p :: ps =>
    simp only [splitNL, if_neg hx, h]
    simp

/-- Splitting a list of the form `a ++ '\x0a' :: t` where `a` is
newline-free peels off `a` as the first piece. -/
theorem splitNL_append_newline : ∀ (a t : List Char), '\n' ∉ a →
    splitNL (a ++ '\n' :: t) = a :: splitNL t := by
  intro a
  induction a with
  | nil =>
    intro t _
    simp [splitNL]
  | cons x a' ih =>
    intro t hx
    have hxn : ¬ x = '\n' := fun hcontra => hx (by simp [hcontra])
    have ha' : '\n' ∉ a' := fun hcontra => hx (List.mem_cons_of_mem _ hcontra)
    show splitNL (x :: (a' ++ '\n' :: t)) = (x :: a') :: splitNL t
    rw [splitNL_cons_ne x _ hxn, ih t ha']
    simp

/-- Splitting the newline-join of a nonempty list of newline-free pieces
recovers exactly the pieces. -/
theorem splitNL_joinChunks : ∀ L : List (List Char), L ≠ [] →
    (∀ c ∈ L, '\n' ∉ c) → splitNL (joinChunks L) = L := by
  intro L
  induction L with
  | nil => intro h; exact absurd rfl h
  | cons c rest ih =>
    intro _ hnl
    match rest with
    | [] =>
      show splitNL (joinChunks [c]) = [c]
      exact splitNL_no_newline_self c (hnl c (by simp))
    | c₂ :: rest' =>
      show splitNL (c ++ '\n' :: joinChunks (c₂ :: rest')) = c :: c₂ :: rest'
      rw [splitNL_append_newline c _ (hnl c (by simp))]
      rw [ih (by simp) (fun x hx => hnl x (List.mem_cons_of_mem _ hx))]

/-- `stripCR` is the identity on carriage-return-free lists. -/
theorem stripCR_eq_self : ∀ l : List Char, '\r' ∉ l → stripCR l = l := by
  intro l
  induction l with
  | nil => intro _; rfl
  | cons c rest ih =>
    intro hc
    match rest with
    | [] =>
      have : ¬ c = '\r' := fun hcontra => hc (by simp [hcontra])
      simp [stripCR, this]
    | d :: rest' =>
      show c :: stripCR (d :: rest') = c :: d :: rest'
      rw [ih (fun hcontra => hc (List.mem_cons_of_mem _ hcontra))]

/-- `linesAux` is the identity on lists of nonempty pieces that carry no
trailing carriage return. -/
theorem linesAux_eq_self : ∀ L : List (List Char),
    (∀ p ∈ L, p ≠ [] ∧ stripCR p = p) → linesAux L = L := by
  intro L
  induction L with
  | nil => intro _; rfl
  | cons p rest ih =>
    intro hL
    match rest with
    | [] =>
      have := (hL p (by simp)).1
      simp [linesAux, this]
    | q :: rest' =>
      show stripCR p :: linesAux (q :: rest') = p :: q :: rest'
      rw [(hL p (by simp)).2, ih (fun x hx => hL x (List.mem_cons_of_mem _ hx))]

/-- A nonempty accumulator guarantees `chunkLoop` emits at least one
chunk. -/
theorem chunkLoop_ne_nil (S : Nat) :
    ∀ (ls : List (List Char)) (cur : List Char), cur ≠ [] →
      chunkLoop S ls cur ≠ [] := by
  intro ls
  induction ls with
  | nil =>
    intro cur hcur
    unfold chunkLoop
    rw [if_neg hcur]
    simp
  | cons line rest ih =>
    intro cur hcur
    unfold chunkLoop
    split
    · simp
    · exact ih (cur ++ '\n' :: line) (by simp)

/-- Join of a cons with a nonempty tail unfolds to one separator step. -/
theorem joinChunks_cons (c : List Char) :
    ∀ L : List (List Char), L ≠ [] →
      joinChunks (c :: L) = c ++ '\n' :: joinChunks L := by
  intro L hL
  match L with
  | [] => exact absurd rfl hL
  | c₂ :: rest => rfl

/-- Merging a separator into the head chunk commutes with joining. -/
theorem joinChunks_merge_head (a b : List Char) :
    ∀ L : List (List Char),
      joinChunks ((a ++ '\n' :: b) :: L) = a ++ '\n' :: joinChunks (b :: L) := by
  intro L
  match L with
  | [] => rfl
  | c :: L' =>
    show (a ++ '\n' :: b) ++ '\n' :: joinChunks (c :: L') =
      a ++ '\n' :: (b ++ '\n' :: joinChunks (c :: L'))
    simp [List.append_assoc]

/-- Core reconstruction invariant: starting `chunkLoop` with a nonempty
accumulator on nonempty lines, joining the produced chunks with newline
separators equals joining the accumulator followed by the remaining
lines. -/
theorem joinChunks_chunkLoop (S : Nat) :
    ∀ (ls : List (List Char)) (cur : List Char), cur ≠ [] →
      (∀ l ∈ ls, l ≠ []) →
      joinChunks (chunkLoop S ls cur) = joinChunks (cur :: ls) := by
  intro ls
  induction ls with
  | nil =>
    intro cur hcur _
    unfold chunkLoop
    rw [if_neg hcur]
  | cons line rest ih =>
    intro cur hcur hls
    have hline : line ≠ [] := hls line (by simp)
    have hrest : ∀ l ∈ rest, l ≠ [] := fun l hl => hls l (List.mem_cons_of_mem _ hl)
    unfold chunkLoop
    split
    · rw [joinChunks_cons cur _ (chunkLoop_ne_nil S rest line hline)]
      rw [ih line hline hrest]
      rw [joinChunks_cons cur (line :: rest) (by simp)]
    · rw [ih (cur ++ '\n' :: line) (by simp) hrest]
      rw [joinChunks_merge_head cur line rest]
      rw [joinChunks_cons cur (line :: rest) (by simp)]

/-- C1 (amended): for every text T containing no carriage return, all of
whose lines are nonempty, and whose first line (when T has any line) is
shorter than S, joining chunk_text_by_lines(T, S) with single newline
separators yields a string whose sequence of lines equals T's sequence of
lines. -/
theorem chunk_reconstruction_amended (text : List Char) (S : Nat)
    (hCR : '\r' ∉ text)
    (hne : ∀ l ∈ rustLines text, l ≠ [])
    (hfirst : ∀ l ls, rustLines text = l :: ls → l.length < S) :
    rustLines (joinChunks (chunk_text_by_lines text S)) = rustLines text := by
  match h : rustLines text with
  | [] =>
    unfold chunk_text_by_lines
    rw [h]
    simp [chunkLoop, joinChunks, rustLines, splitNL, linesAux]
  | l :: ls =>
    have hlfirst : l.length < S := hfirst l ls h
    have hl : l ≠ [] := hne l (by rw [h]; simp)
    have hls : ∀ x ∈ ls, x ≠ [] := fun x hx =>
      hne x (by rw [h]; exact List.mem_cons_of_mem _ hx)
    have hmem : ∀ c ∈ l :: ls, c ∈ rustLines text := fun c hc => by rw [h]; exact hc
    unfold chunk_text_by_lines
    rw [h]
    unfold chunkLoop
    have hcond : ¬ (List.length ([] : List Char) + l.length + 1 > S) := by
      simp only [List.length_nil]
      omega
    rw [if_neg hcond, if_pos rfl]
    rw [joinChunks_chunkLoop S ls l hl hls]
    show rustLines (joinChunks (l :: ls)) = l :: ls
    unfold rustLines
    rw [splitNL_joinChunks (l :: ls) (by simp)
      (fun c hc => mem_rustLines_no_newline (hmem c hc))]
    refine linesAux_eq_self (l :: ls) (fun p hp => ⟨?_, ?_⟩)
    · rcases List.mem_cons.mp hp with hcase | hcase
      · exact hcase ▸ hl
      · exact hls p hcase
    · refine stripCR_eq_self p (fun hcr => ?_)
      exact hCR (mem_rustLines_subset text p (hmem p hp) '\r' hcr)

/-- Witness for C1 (amended) at text "ab\x0acd" with S = 4: both lines are
nonempty, the first has length 2 < 4, and the rebuilt line sequence equals
the original one. -/
theorem chunk_reconstruction_amended_witness :
    ('\r' ∉ "ab\ncd".toList ∧ (∀ l ∈ rustLines "ab\ncd".toList, l ≠ [])) ∧
    rustLines (joinChunks (chunk_text_by_lines "ab\ncd".toList 4)) =
      rustLines "ab\ncd".toList :=
  ⟨⟨by decide, by decide⟩,
    chunk_reconstruction_amended "ab\ncd".toList 4 (by decide) (by decide)
      (fun l ls h => by
        have h' : (["ab".toList, "cd".toList] : List (List Char)) = l :: ls := by
          rw [← h]
          decide
        injection h' with h₁ h₂
        rw [← h₁]
        decide)⟩

/-- C1 (counterexample): for the text "\x0a" (one empty line) and S = 1,
joining the chunks (there are none) with newline separators yields the
empty string, whose line sequence [] differs from the text's line
sequence [""]: the empty line is lost, refuting the reconstruction claim. -/
theorem chunk_reconstruction_counterexample :
    1 ≥ 1 ∧
      rustLines (joinChunks (chunk_text_by_lines "\n".toList 1)) ≠
        rustLines "\n".toList := by
  constructor
  · decide
  · decide

/-- C3 (code evaluated at the failing input): a success-status rewrite
response whose body is the JSON object {} — so that
choices[0].message.content is missing — makes edit_text panic via the
`unwrap()` on main.rs line 270 instead of returning an error, unlike a
non-success status, which does return an error result. -/
theorem edit_text_malformed_body_panics :
    edit_text (RewriteResp.resp true "" (Json.obj [])) = EditResult.panicked ∧
    edit_text (RewriteResp.resp false "502 oops" (Json.obj [])) =
      EditResult.err ("Failed to edit text: " ++ "502 oops") :=
  ⟨rfl, rfl⟩

/-- C4 (code evaluated at the failing input): when every stage up to the
rewrite succeeds but the rewrite response body is malformed, the request
handler panics rather than terminating by returning an error value. -/
theorem handler_malformed_rewrite_panics :
    handleMsg envMalformed =
      ([Event.ack, Event.extractCall "u", Event.rewriteCall],
        Outcome.panicked) := rfl

/-- C6: for every request whose extraction stage fails, the handler sends
exactly one error message, labeled for the extraction stage, and returns
an error without ever entering the rewrite, chunking, synthesis, or
delivery stages (the full event trace is the acknowledgement, the
extraction call, and the one error message). -/
theorem extraction_failure_single_error (env : Env) (url e : String)
    (hmsg : env.msgText = some url) (hack : env.ackOk = true)
    (hext : env.extract = Except.error e) :
    handleMsg env =
      ([Event.ack, Event.extractCall url,
        Event.errMsg ("Error: Error retrieving blog text " ++ e)],
       Outcome.err) := by
  simp [handleMsg, hmsg, hack, hext]

/-- Witness for C6 at a concrete environment whose extraction fails with
detail "nav". -/
theorem extraction_failure_single_error_witness :
    handleMsg envExtractFail =
      ([Event.ack, Event.extractCall "u",
        Event.errMsg ("Error: Error retrieving blog text " ++ "nav")],
       Outcome.err) :=
  extraction_failure_single_error envExtractFail "u" "nav" rfl rfl rfl

/-- C7 (counterexample): in an environment where the acknowledgement send
fails and every later stage would succeed, the handler's whole trace is
the failed acknowledgement and it returns an error: the extraction call
never happens, so the acknowledgement does gate the later stages. -/
theorem ack_gates_pipeline_counterexample :
    handleMsg envAckFail = ([Event.ack], Outcome.err) ∧
      Event.extractCall "u" ∉ (handleMsg envAckFail).1 := by
  constructor
  · rfl
  · decide

/-- C7 (amended): the handler does send the acknowledgement first on every
request with text, but the send is awaited and gates the rest of the
pipeline: when it fails the handler returns an error immediately and no
later stage runs. -/
theorem ack_first_and_gating (env : Env) (url : String)
    (hmsg : env.msgText = some url) :
    (handleMsg env).1.head? = some Event.ack ∧
    (env.ackOk = false → handleMsg env = ([Event.ack], Outcome.err)) := by
  constructor
  · by_cases hack : env.ackOk
    · cases hext : env.extract with
      | error e => simp [handleMsg, hmsg, hack, hext]
      | ok t =>
        cases hedit : edit_text env.rewrite with
        | ok s => simp [handleMsg, hmsg, hack, hext, hedit]
        | err e => simp [handleMsg, hmsg, hack, hext, hedit]
        | panicked => simp [handleMsg, hmsg, hack, hext, hedit]
    · simp [handleMsg, hmsg, hack]
  · intro hack
    simp [handleMsg, hmsg, hack]

/-- Witness for C7 (amended) at the concrete environment whose
acknowledgement fails. -/
theorem ack_first_and_gating_witness :
    (handleMsg envAckFail).1.head? = some Event.ack ∧
    (envAckFail.ackOk = false →
      handleMsg envAckFail = ([Event.ack], Outcome.err)) :=
  ack_first_and_gating envAckFail "u" rfl

/-- The per-chunk loop, when synthesis succeeds with delivery on every
chunk before position `pre.length` (counting from start index `s`) and
fails on the next chunk, produces exactly the synthesize/deliver event
pairs for the chunks of `pre`, then the failing synthesis call and one
stage-labeled error message, and returns an error without touching any
later chunk. -/
theorem runChunks_fail_trace (tts : Nat → List Char → Except String String)
    (deliver : Nat → Bool) (detail : String) :
    ∀ (pre : List (List Char)) (s : Nat) (ci : List Char)
      (post : List (List Char)),
      (∀ j (hj : j < pre.length),
        (∃ a, tts (s + j) (pre.get ⟨j, hj⟩) = Except.ok a) ∧
          deliver (s + j) = true) →
      tts (s + pre.length) ci = Except.error detail →
      runChunks tts deliver (pre ++ ci :: post) s =
        (okEvents pre s ++
          [Event.ttsCall (s + pre.length) ci,
           Event.errMsg ("Error: Error converting text to speech " ++ detail)],
         Outcome.err) := by
  intro pre
  induction pre with
  | nil =>
    intro s ci post _ hfail
    simp only [List.length_nil, Nat.add_zero] at hfail
    show runChunks tts deliver (ci :: post) s = _
    unfold runChunks
    rw [hfail]
    simp [okEvents]
  | cons c pre' ih =>
    intro s ci post hok hfail
    have h0 := hok 0 (by simp)
    obtain ⟨⟨a, ha⟩, hd⟩ := h0
    have ha' : tts s c = Except.ok a := by
      rw [Nat.add_zero] at ha
      exact ha
    have hd' : deliver s = true := by
      rw [Nat.add_zero] at hd
      exact hd
    have hok' : ∀ j (hj : j < pre'.length),
        (∃ b, tts ((s + 1) + j) (pre'.get ⟨j, hj⟩) = Except.ok b) ∧
          deliver ((s + 1) + j) = true := by
      intro j hj
      have hlt : j + 1 < (c :: pre').length := by
        simp only [List.length_cons]
        omega
      have := hok (j + 1) hlt
      rw [show s + (j + 1) = (s + 1) + j by omega] at this
      exact this
    have hfail' : tts ((s + 1) + pre'.length) ci = Except.error detail := by
      rw [show (s + 1) + pre'.length = s + (pre'.length + 1) by omega]
      exact hfail
    have hrec := ih (s + 1) ci post hok' hfail'
    have harith : s + (c :: pre').length = (s + 1) + pre'.length := by
      simp only [List.length_cons]
      omega
    show runChunks tts deliver (c :: (pre' ++ ci :: post)) s = _
    unfold runChunks
    rw [ha', if_pos hd', hrec, harith]
    simp [okEvents]

/-- C5 (amended): if chunking yields the chunks `pre ++ ci :: post` and
synthesis (with delivery) succeeds for every chunk of `pre` but fails on
`ci` at index `pre.length`, then the loop delivers the audio of exactly
the chunks of `pre` in order, sends exactly one error message — labeled
for the synthesis stage, without the chunk index — and returns an error
with no synthesis or delivery attempted for any later chunk. -/
theorem synthesis_failure_midway (tts : Nat → List Char → Except String String)
    (deliver : Nat → Bool) (pre : List (List Char)) (ci : List Char)
    (post : List (List Char)) (detail : String)
    (hok : ∀ j (hj : j < pre.length),
      (∃ a, tts j (pre.get ⟨j, hj⟩) = Except.ok a) ∧ deliver j = true)
    (hfail : tts pre.length ci = Except.error detail) :
    runChunks tts deliver (pre ++ ci :: post) 0 =
      (okEvents pre 0 ++
        [Event.ttsCall pre.length ci,
         Event.errMsg ("Error: Error converting text to speech " ++ detail)],
       Outcome.err) := by
  have h := runChunks_fail_trace tts deliver detail pre 0 ci post
    (by simpa using hok) (by simpa using hfail)
  simpa using h

/-- Witness for C5 (amended) at three one-character chunks with the
synthesis oracle failing at index 1. -/
theorem synthesis_failure_midway_witness :
    runChunks ttsFailAt1 deliverAllDemo ([['a']] ++ ['b'] :: [['c']]) 0 =
      (okEvents [['a']] 0 ++
        [Event.ttsCall 1 ['b'],
         Event.errMsg ("Error: Error converting text to speech " ++ "boom")],
       Outcome.err) :=
  synthesis_failure_midway ttsFailAt1 deliverAllDemo [['a']] ['b'] [['c']] "boom"
    (by
      intro j hj
      have hj' : j < 1 := by simpa using hj
      interval_cases j
      exact ⟨⟨"audio", rfl⟩, rfl⟩)
    rfl

/-- C5 (counterexample): the single error message sent when synthesis
fails at chunk index 1 of three chunks is character-for-character the
message sent when it instead fails at index 2, and it contains no digit at
all: the message is labeled for the synthesis stage but not for the chunk
index, refuting the claim that it is labeled for chunk i. -/
theorem synthesis_error_message_not_index_labeled :
    errMsgTexts (runChunks ttsFailAt1 deliverAllDemo [['a'], ['b'], ['c']] 0).1 =
      ["Error: Error converting text to speech boom"] ∧
    errMsgTexts (runChunks ttsFailAt2 deliverAllDemo [['a'], ['b'], ['c']] 0).1 =
      ["Error: Error converting text to speech boom"] ∧
    "Error: Error converting text to speech boom".toList.all
      (fun ch => !ch.isDigit) = true := by
  refine ⟨?_, ?_, ?_⟩ <;> decide

end BlogBot
